import Mathlib

set_option maxRecDepth 10000

/- Verification of the HTR post-processing pipeline (htr_postprocessing.py).

   Shallow embedding: document text and Python strings are modelled as
   `List Char`; each Python string operation used by the source is modelled
   by an executable Lean function below.  Configuration values (the tables
   in config.py, an external collaborator) are parameters of the embedded
   functions. -/

/-- Converts a string literal to the character-list representation used
throughout the development. -/
def strL (s : String) : List Char := s.data

/-- Python `s.replace(old, new)`, non-overlapping left-to-right replacement,
implemented with an explicit fuel argument (structural recursion, so closed
terms evaluate by `rfl`/`decide`).  One unit of fuel is spent per character
position examined; `s.length` fuel is always enough.  Call sites in the
source always pass a nonempty `old`; with `old = []` this model is the
identity (Python would instead interleave `new` everywhere). -/
def pyReplaceFuel (old new : List Char) : Nat → List Char → List Char
  | 0, s => s
  | _ + 1, [] => []
  | fuel + 1, c :: rest =>
    if old ≠ [] ∧ old.isPrefixOf (c :: rest) then
      new ++ pyReplaceFuel old new fuel ((c :: rest).drop old.length)
    else
      c :: pyReplaceFuel old new fuel rest

/-- Python `s.replace(old, new)` (see `pyReplaceFuel`). -/
def pyReplace (old new s : List Char) : List Char := pyReplaceFuel old new s.length s

theorem pyReplaceFuel_step_down (old new : List Char) :
    ∀ fuel s, s.length ≤ fuel →
      pyReplaceFuel old new (fuel + 1) s = pyReplaceFuel old new fuel s := by
  intro fuel
  induction fuel with
  | zero =>
    intro s hs
    have hz : s = [] := List.eq_nil_of_length_eq_zero (Nat.le_zero.mp hs)
    subst hz; rfl
  | succ f ih =>
    intro s hs
    cases s with
    | nil => rfl
    | cons c rest =>
      have hrest : rest.length ≤ f := by
        have := hs; simp [List.length_cons] at this; omega
      simp only [pyReplaceFuel]
      by_cases h : old ≠ [] ∧ old.isPrefixOf (c :: rest)
      · rw [if_pos h, if_pos h]
        congr 1
        have hold1 : 1 ≤ old.length := by
          cases old with
          | nil => exact absurd rfl h.1
          | cons _ _ => simp
        have hdl : ((c :: rest).drop old.length).length ≤ f := by
          rw [List.length_drop, List.length_cons]; omega
        exact ih _ hdl
      · rw [if_neg h, if_neg h]
        congr 1
        exact ih rest hrest

theorem pyReplaceFuel_invar (old new : List Char) :
    ∀ fuel s, s.length ≤ fuel →
      pyReplaceFuel old new fuel s = pyReplace old new s := by
  intro fuel
  induction fuel with
  | zero =>
    intro s hs
    have hz : s = [] := List.eq_nil_of_length_eq_zero (Nat.le_zero.mp hs)
    subst hz; rfl
  | succ f ih =>
    intro s hs
    by_cases he : s.length = f + 1
    · unfold pyReplace; rw [he]
    · have hle : s.length ≤ f := by omega
      rw [pyReplaceFuel_step_down old new f s hle]
      exact ih s hle

theorem pyReplace_nil (old new : List Char) : pyReplace old new [] = [] := rfl

theorem pyReplace_cons (old new : List Char) (c : Char) (rest : List Char) :
    pyReplace old new (c :: rest) =
      if old ≠ [] ∧ old.isPrefixOf (c :: rest) then
        new ++ pyReplace old new ((c :: rest).drop old.length)
      else
        c :: pyReplace old new rest := by
  show pyReplaceFuel old new (rest.length + 1) (c :: rest) = _
  simp only [pyReplaceFuel]
  by_cases h : old ≠ [] ∧ old.isPrefixOf (c :: rest)
  · rw [if_pos h, if_pos h]
    congr 1
    have hold1 : 1 ≤ old.length := by
      cases old with
      | nil => exact absurd rfl h.1
      | cons _ _ => simp
    have hdl : ((c :: rest).drop old.length).length ≤ rest.length := by
      rw [List.length_drop, List.length_cons]; omega
    exact pyReplaceFuel_invar old new rest.length _ hdl
  · rw [if_neg h, if_neg h]
    rfl

theorem isPrefixOf_append_self : ∀ l t : List Char, l.isPrefixOf (l ++ t) = true := by
  intro l t
  induction l with
  | nil => simp [List.isPrefixOf]
  | cons a l ih => simp [List.isPrefixOf, ih]

theorem pyReplace_append_self (old new t : List Char) (h : old ≠ []) :
    pyReplace old new (old ++ t) = new ++ pyReplace old new t := by
  obtain ⟨c, o, ho⟩ := List.exists_cons_of_ne_nil h
  subst ho
  rw [List.cons_append, pyReplace_cons,
      if_pos ⟨h, by rw [← List.cons_append]; exact isPrefixOf_append_self (c :: o) t⟩]
  congr 1
  rw [← List.cons_append, List.drop_left]

theorem pyReplace_self (old new : List Char) (h : old ≠ []) :
    pyReplace old new old = new := by
  have hx := pyReplace_append_self old new [] h
  rw [List.append_nil] at hx
  rw [hx, pyReplace_nil, List.append_nil]

/-- Models Python's substring test `pat in s` (at character-list level):
true iff `pat` occurs contiguously in `s`. -/
def occursIn (pat : List Char) : List Char → Bool
  | [] => pat.isEmpty
  | c :: rest => pat.isPrefixOf (c :: rest) || occursIn pat rest

theorem pyReplace_not_occurs (old new : List Char) :
    ∀ s, occursIn old s = false → pyReplace old new s = s := by
  intro s
  induction s with
  | nil => intro _; rfl
  | cons c rest ih =>
    intro h
    simp only [occursIn, Bool.or_eq_false_iff] at h
    rw [pyReplace_cons, if_neg, ih h.2]
    intro hcond
    rw [h.1] at hcond
    exact Bool.false_ne_true hcond.2

theorem occursIn_false_of_mem (pat s : List Char) (c : Char)
    (hc : c ∈ pat) (hs : c ∉ s) : occursIn pat s = false := by
  induction s with
  | nil =>
    cases pat with
    | nil => cases hc
    | cons a t => rfl
  | cons d rest ih =>
    rw [occursIn, Bool.or_eq_false_iff]
    refine ⟨?_, ih (fun hm => hs (List.mem_cons_of_mem d hm))⟩
    cases hp : pat.isPrefixOf (d :: rest)
    · rfl
    · exfalso
      have hpre : pat <+: d :: rest := List.isPrefixOf_iff_prefix.mp hp
      exact hs (hpre.subset hc)

theorem pyReplace_delete_char (ch : Char) :
    ∀ s, pyReplace [ch] [] s = s.filter (fun d => !(d == ch)) := by
  intro s
  induction s with
  | nil => rfl
  | cons d rest ih =>
    rw [pyReplace_cons]
    by_cases h : ch = d
    · subst h
      rw [if_pos ⟨by simp, by simp [List.isPrefixOf]⟩]
      simp [ih]
    · rw [if_neg, List.filter_cons_of_pos (by simp [Ne.symm h]), ih]
      intro hcond
      have := hcond.2
      simp [List.isPrefixOf] at this
      exact h this

/-- Python `s.split(sep)` for a single-character separator: splits at every
occurrence of `sep`, keeping empty pieces (so the result is always
nonempty). -/
def pySplit (sep : Char) : List Char → List (List Char)
  | [] => [[]]
  | c :: rest =>
    if c = sep then [] :: pySplit sep rest
    else
      match pySplit sep rest with
      | [] => [[c]]
      | h :: t => (c :: h) :: t

theorem pySplit_ne_nil (sep : Char) : ∀ l : List Char, pySplit sep l ≠ [] := by
  intro l
  induction l with
  | nil => simp [pySplit]
  | cons c rest ih =>
    by_cases h : c = sep
    · simp [pySplit, h]
    · simp only [pySplit, if_neg h]
      cases hr : pySplit sep rest with
      | nil => exact absurd hr ih
      | cons a t => simp

theorem pySplit_append (sep : Char) :
    ∀ (base r : List Char), sep ∉ base →
      pySplit sep (base ++ sep :: r) = base :: pySplit sep r := by
  intro base
  induction base with
  | nil => intro r _; simp [pySplit]
  | cons c bt ih =>
    intro r hmemb
    have hc : c ≠ sep := fun e => hmemb (e ▸ List.mem_cons_self c bt)
    have hbt : sep ∉ bt := fun hm => hmemb (List.mem_cons_of_mem c hm)
    rw [List.cons_append]
    simp only [pySplit, if_neg hc]
    rw [ih r hbt]

/-- Python `s.split()` (no argument): split on runs of whitespace, dropping
empty pieces; implemented with fuel like `pyReplaceFuel`. -/
def pySplitWsFuel : Nat → List Char → List (List Char)
  | 0, _ => []
  | _ + 1, [] => []
  | fuel + 1, c :: rest =>
    if c.isWhitespace then pySplitWsFuel fuel rest
    else
      ((c :: rest).takeWhile (fun d => !d.isWhitespace)) ::
        pySplitWsFuel fuel ((c :: rest).dropWhile (fun d => !d.isWhitespace))

/-- Python `s.split()` (see `pySplitWsFuel`). -/
def pySplitWs (s : List Char) : List (List Char) := pySplitWsFuel s.length s

/-- Models Python's `list(set(xs))`: duplicates removed.  Python's set
iteration order is unspecified (hash order); this model keeps first
occurrences.  No theorem below depends on the order. -/
def uniqueKeepFirst : List (List Char) → List (List Char)
  | [] => []
  | w :: rest => w :: (uniqueKeepFirst rest).filter (fun v => v ≠ w)

/-- Python `s.lower()` (ASCII behaviour, which covers the Latin corpus). -/
def toLowerL (s : List Char) : List Char := s.map Char.toLower

/-- Python `s.capitalize()`: first character uppercased, the rest
lowercased (ASCII behaviour). -/
def pyCapitalize : List Char → List Char
  | [] => []
  | c :: rest => c.toUpper :: rest.map Char.toLower

/-- Python `word[0].isupper()`.  Words reaching this test come from
`split()` and are nonempty; on `[]` the model answers `false` where Python
would raise an IndexError. -/
def headIsUpper : List Char → Bool
  | [] => false
  | c :: _ => c.isUpper

/-- Python `s[-1:]`: the last character of `s` as a (possibly empty)
string. -/
def lastSlice (s : List Char) : List Char := s.drop (s.length - 1)

/-- Python regex `\w` for the ASCII range: letters, digits and
underscore. -/
def isWordChar (c : Char) : Bool := c.isAlphanum || c == '_'

/-- The matches of `re.findall(r'\b\w+\n\w+\b', text)`: maximal word-character
runs directly surrounding a single newline, scanned left to right without
overlap.  Fuel-based like `pyReplaceFuel`; `text.length` fuel suffices
because every recursive call consumes at least one character. -/
def findWNWFuel : Nat → List Char → List (List Char)
  | 0, _ => []
  | _ + 1, [] => []
  | fuel + 1, c :: rest =>
    if isWordChar c then
      let w1 := (c :: rest).takeWhile isWordChar
      let r1 := (c :: rest).dropWhile isWordChar
      if r1.headD ' ' = '\n' then
        let r2 := r1.tail
        let w2 := r2.takeWhile isWordChar
        if w2 = [] then findWNWFuel fuel r2
        else (w1 ++ '\n' :: w2) :: findWNWFuel fuel (r2.dropWhile isWordChar)
      else findWNWFuel fuel r1
    else findWNWFuel fuel rest

/-- The list of `word\nword` matches found in `text` (see `findWNWFuel`). -/
def findWNW (text : List Char) : List (List Char) := findWNWFuel text.length text

theorem findWNWFuel_nil : ∀ fuel, findWNWFuel fuel [] = [] := by
  intro fuel; cases fuel <;> rfl

theorem takeWhile_append_stop {p : Char → Bool} :
    ∀ (l : List Char) (x : Char) (r : List Char),
      (∀ c ∈ l, p c = true) → p x = false → (l ++ x :: r).takeWhile p = l := by
  intro l
  induction l with
  | nil => intro x r _ hx; simp [List.takeWhile_cons, hx]
  | cons a t ih =>
    intro x r hall hx
    have ha := hall a (List.mem_cons_self a t)
    simp [List.takeWhile_cons, ha,
      ih x r (fun c hc => hall c (List.mem_cons_of_mem a hc)) hx]

theorem dropWhile_append_stop {p : Char → Bool} :
    ∀ (l : List Char) (x : Char) (r : List Char),
      (∀ c ∈ l, p c = true) → p x = false → (l ++ x :: r).dropWhile p = x :: r := by
  intro l
  induction l with
  | nil => intro x r _ hx; simp [List.dropWhile_cons, hx]
  | cons a t ih =>
    intro x r hall hx
    have ha := hall a (List.mem_cons_self a t)
    simp [List.dropWhile_cons, ha,
      ih x r (fun c hc => hall c (List.mem_cons_of_mem a hc)) hx]

theorem takeWhile_all {p : Char → Bool} :
    ∀ l : List Char, (∀ c ∈ l, p c = true) → l.takeWhile p = l := by
  intro l
  induction l with
  | nil => intro _; rfl
  | cons a t ih =>
    intro hall
    simp [List.takeWhile_cons, hall a (List.mem_cons_self a t),
      ih (fun c hc => hall c (List.mem_cons_of_mem a hc))]

theorem dropWhile_all {p : Char → Bool} :
    ∀ l : List Char, (∀ c ∈ l, p c = true) → l.dropWhile p = [] := by
  intro l
  induction l with
  | nil => intro _; rfl
  | cons a t ih =>
    intro hall
    simp [List.dropWhile_cons, hall a (List.mem_cons_self a t),
      ih (fun c hc => hall c (List.mem_cons_of_mem a hc))]

/- ===== TextForPostprocessing ===== -/

/-- `TextForPostprocessing.clean_text` (lines 68-78): for each configured
character, delete all of its occurrences via `text.replace(character, '')`.
The entries of `config.characters_to_clean` are single characters. -/
def clean_text : List Char → List Char → List Char
  | [], text => text
  | ch :: cs, text => clean_text cs (pyReplace [ch] [] text)

/-- `TextForPostprocessing.replace_word_in_text` (lines 80-89): the three
boundary-safe `re.sub` calls — space-word-space, newline-word-space and
space-word-newline.  The patterns are built from pipeline words, which
contain no regex metacharacters, so `re.sub` behaves as a literal
replacement (`pyReplace`). -/
def replace_word_in_text (original replacement text : List Char) : List Char :=
  let t1 := pyReplace (' ' :: original ++ [' ']) (' ' :: replacement ++ [' ']) text
  let t2 := pyReplace ('\n' :: original ++ [' ']) ('\n' :: replacement ++ [' ']) t1
  pyReplace (' ' :: original ++ ['\n']) (' ' :: replacement ++ ['\n']) t2

/- ===== Expansion ===== -/

/-- The two accumulation lists of an `Expansion` object (lines 102-109). -/
structure ExpansionState where
  expanded_words : List (List Char × List Char)
  expanded_words_errors : List (List Char × List Char)

/-- Lookup in the abbreviation dictionary (`word in dict` / `dict[word]`),
modelled as an association list with unique keys. -/
def dictLookup : List (List Char × List Char) → List Char → Option (List Char)
  | [], _ => none
  | p :: rest, k => if p.1 = k then some p.2 else dictLookup rest k

/-- Rule-based expansion (lines 127-130): start from the word and apply every
substitution rule of `config.rules_for_expansion` in configured order. -/
def apply_rules (rules_for_expansion : List (List Char × List Char))
    (word : List Char) : List Char :=
  rules_for_expansion.foldl (fun expansion rule => pyReplace rule.1 rule.2 expansion) word

/-- `Expansion.expand_abbreviation` (lines 111-135).  The configured marker
characters (`config.special_characters_dictionary.values()`) are single
characters, modelled as a `List Char`. -/
def expand_abbreviation (special_characters : List Char)
    (abbreviation_dictionary rules_for_expansion : List (List Char × List Char))
    (st : ExpansionState) (word : List Char) : ExpansionState :=
  if word.any (fun ch => special_characters.contains ch) then
    let expansion :=
      match dictLookup abbreviation_dictionary word with
      | some e => e
      | none => apply_rules rules_for_expansion word
    ⟨st.expanded_words ++ [(word, expansion)], st.expanded_words_errors⟩
  else
    st

/- ===== Lexicon ===== -/

/-- One row of the Frankfurt Latin Lexicon dataframe, restricted to the
columns the pipeline reads: (WF-Name, SL-Name, L-Name). -/
abbrev LexRow := List Char × List Char × List Char

/-- `df['WF-Name'].eq(w).any()`. -/
def lexHas (df : List LexRow) (w : List Char) : Bool :=
  df.any (fun row => row.1 == w)

/-- `df.loc[df['WF-Name'] == w, 'SL-Name'].array[0]`: the SL-Name of the
first matching row (call sites guard with `lexHas`). -/
def lexSuperlemma (df : List LexRow) (w : List Char) : List Char :=
  (((df.filter (fun row => row.1 == w)).map (fun row => row.2.1))).headD []

/-- `df.loc[df['WF-Name'] == w, 'L-Name'].array[0]`: the L-Name of the first
matching row. -/
def lexLemma (df : List LexRow) (w : List Char) : List Char :=
  (((df.filter (fun row => row.1 == w)).map (fun row => row.2.2))).headD []

/- ===== Normalisation: root stripping ===== -/

/-- The ordered ending list of the default (noun/adjective) branch
(line 349). -/
def noun_endings : List (List Char) :=
  [strL "um", strL "us", strL "u", strL "e", strL "os", strL "a",
   strL "us", strL "is", strL "es", strL "as"]

/-- One iteration of the ending loop (lines 350-353): if the current base
ends with `ending`, cut `ending.length` characters off base and lemma
(Python `s[:-n]`). -/
def stripEnding (p : List Char × List Char) (ending : List Char) :
    List Char × List Char :=
  if ending.isSuffixOf p.1 then
    (p.1.take (p.1.length - ending.length), p.2.take (p.2.length - ending.length))
  else p

/-- The whole ending loop of the default branch (lines 349-353).  Note that
the Python loop has no `break`: it keeps testing the remaining endings
against the already-stripped base. -/
def strip_endings (superlemma lemma_ : List Char) : List Char × List Char :=
  noun_endings.foldl stripEnding (superlemma, lemma_)

/-- Root stripping (lines 321-353), branching on the word form extracted
from the super-lemma: returns the stripped (super-lemma base, lemma).
In the `PRO` branch the source tests `superlemma.endswith('er')` on the
*unsplit* super-lemma (`base@PRO`), and only then splits; this model keeps
that behaviour. -/
def root_strip (wordform superlemma lemma_ : List Char) : List Char × List Char :=
  if wordform = strL "V" then
    let superlemma1 := (pySplit '@' superlemma).headD []
    let chars_to_delete : Nat :=
      if (strL "or").isSuffixOf superlemma1 then 2
      else if (strL "sco").isSuffixOf superlemma1 then 3
      else 1
    (superlemma1.take (superlemma1.length - chars_to_delete),
     lemma_.take (lemma_.length - chars_to_delete))
  else if wordform = strL "ADV" then
    ((pySplit '@' superlemma).headD [], lemma_)
  else if wordform = strL "PRO" then
    let chars_to_delete : Nat := if (strL "er").isSuffixOf superlemma then 2 else 1
    let superlemma1 := (pySplit '@' superlemma).headD []
    (superlemma1.take (superlemma1.length - chars_to_delete),
     lemma_.take (lemma_.length - chars_to_delete))
  else
    let superlemma1 := (pySplit '@' superlemma).headD []
    strip_endings superlemma1 lemma_

/-- Line 364: `normalised_word = word.replace(lemma, superlemma)` — the
surface substitution of the (possibly capitalised) stripped lemma by the
stripped super-lemma root inside the original token. -/
def normalise_surface (word lemma_ superlemma : List Char) : List Char :=
  pyReplace lemma_ superlemma word

/-- One pass of an ordered substring-substitution table over a text
(used for `config.characters_to_normalise`, lines 385-387 and 393-395, and
for `config.verb_endings_to_normalise`, lines 369-370). -/
def charNormalise (table : List (List Char × List Char)) (s : List Char) : List Char :=
  table.foldl (fun t p => pyReplace p.1 p.2 t) s

/- ===== Normalisation: the per-word loop ===== -/

/-- The audit record `dict_normalization` (lines 319, 356, 373). -/
structure NormRecord where
  wort : List Char
  superlemmaEntry : List Char
  lemmaEntry : List Char
  superlemmaRoot : List Char
  lemmaRoot : List Char
  wortform : List Char
  normalisierung : List Char

/-- The mutable state of `normalise_text`'s word loop: the document text,
`self.normalisation_error_list`, and the local variable
`dict_normalization` (`none` = not yet assigned). -/
structure NormState where
  sampleText : List Char
  errorList : List (List Char)
  dictNormalization : Option NormRecord

/-- The configuration tables consumed by `normalise_text` (owned by
config.py, an external collaborator). -/
structure NormConfig where
  verb_endings_to_normalise : List (List Char × List Char)
  characters_to_normalise : List (List Char × List Char)

/-- Python errors the word loop can raise. -/
inductive PyErr where
  | unboundLocal
  | indexError
deriving DecidableEq

/-- One iteration of the word loop of `Normalisation.normalise_text`
(lines 302-390).  The two `continue` paths (stopwords, line 312, and the
lemma/super-lemma last-character mismatch, line 314) skip the rest of the
body.  All other paths end with the character canonicalisation pass
(lines 385-387) followed by `write_to_csv(dict_normalization)` (line 390),
which raises `UnboundLocalError` when `dict_normalization` was never
assigned — i.e. when no earlier iteration reached line 319.  Line 322's
`superlemma.split("@")[1]` raises `IndexError` on a super-lemma without
`'@'`. -/
def normalise_word (df : List LexRow) (cfg : NormConfig)
    (word : List Char) (st : NormState) : Except PyErr NormState :=
  let word_to_test := word
  if lexHas df (toLowerL word_to_test) then
    let superlemma := lexSuperlemma df (toLowerL word_to_test)
    let lemma_ := lexLemma df (toLowerL word_to_test)
    if superlemma = strL "alea@NN" ∨ superlemma = strL "a@AP" ∨
        superlemma = strL "hilla@NN" then
      Except.ok st
    else if lastSlice ((pySplit '@' superlemma).headD []) ≠ lastSlice lemma_ then
      Except.ok st
    else
      match (pySplit '@' superlemma).get? 1 with
      | none => Except.error PyErr.indexError
      | some wordform =>
        let stripped := root_strip wordform superlemma lemma_
        let superlemma1 := stripped.1
        let lemma1 := stripped.2
        let lemma2 := if headIsUpper word then pyCapitalize lemma1 else lemma1
        let superlemma2 := if headIsUpper word then pyCapitalize superlemma1 else superlemma1
        let normalised_word := normalise_surface word lemma2 superlemma2
        let normalised_word2 :=
          if wordform = strL "V" then
            let _ending := pyReplace superlemma2 [] normalised_word
            charNormalise cfg.verb_endings_to_normalise normalised_word
          else normalised_word
        let text1 := replace_word_in_text word normalised_word2 st.sampleText
        let text2 := charNormalise cfg.characters_to_normalise text1
        Except.ok ⟨text2, st.errorList,
          some ⟨word, superlemma, lemma_, superlemma1, lemma1, wordform, normalised_word2⟩⟩
  else
    let errorList2 := st.errorList ++ [word]
    let text2 := charNormalise cfg.characters_to_normalise st.sampleText
    match st.dictNormalization with
    | none => Except.error PyErr.unboundLocal
    | some d => Except.ok ⟨text2, errorList2, some d⟩

/-- The word loop of `normalise_text`, threading the state through
`normalise_word` and propagating a raised error. -/
def normalise_loop (df : List LexRow) (cfg : NormConfig) :
    List (List Char) → NormState → Except PyErr NormState
  | [], st => Except.ok st
  | w :: ws, st =>
    match normalise_word df cfg w st with
    | Except.error e => Except.error e
    | Except.ok st2 => normalise_loop df cfg ws st2

/-- `Normalisation.normalise_text` (lines 296-397): split the text into
unique words, run the word loop, then apply the final character
canonicalisation pass (lines 393-395).  Returns the rewritten text and the
normalisation error list, or the Python error that aborted the run. -/
def normalise_text (df : List LexRow) (cfg : NormConfig)
    (sample_text : List Char) : Except PyErr (List Char × List (List Char)) :=
  let wordlist_from_text := pySplitWs sample_text
  let unique_words := uniqueKeepFirst wordlist_from_text
  match normalise_loop df cfg unique_words ⟨sample_text, [], none⟩ with
  | Except.error e => Except.error e
  | Except.ok st =>
      Except.ok (charNormalise cfg.characters_to_normalise st.sampleText, st.errorList)

/-- `Normalisation.word_segmentation` (lines 272-294): find every
`word\nword` match, and for each one whose newline-free form is in the
lexicon (lowercased), replace all its literal occurrences in the text by
that merged form. -/
def word_segmentation (df : List LexRow) (text : List Char) : List Char :=
  (findWNW text).foldl
    (fun t inst =>
      let evaluation_term := pyReplace ['\n'] [] inst
      if lexHas df (toLowerL evaluation_term) then pyReplace inst evaluation_term t
      else t)
    text

/- ===== main ===== -/

/-- The expansion-check loop of `main` (lines 452-463): `true_or_false` is
hard-coded to `True` (line 455, the `lexicon.proof_read_word` call is
commented out), so every expanded pair is applied to the text and the
erroneous-expansion branch is dead.  Returns the rewritten text and
`expansions.expanded_words_errors`. -/
def main_expansion_check (sample_text : List Char)
    (expanded_words : List (List Char × List Char)) :
    List Char × List (List Char × List Char) :=
  expanded_words.foldl
    (fun acc word =>
      let true_or_false := true
      if true_or_false then (replace_word_in_text word.1 word.2 acc.1, acc.2)
      else (replace_word_in_text word.1 word.2 acc.1, acc.2 ++ [word]))
    (sample_text, [])

/- ===== Definitions following the claims' words (for refutation) ===== -/

/-- Modelled from the claim's words (C1): strip only the FIRST ending of
`noun_endings` that matches the base, then stop.  Used solely to contrast
the claim with the source's ending loop. -/
def strip_first_ending_claim (superlemma lemma_ : List Char) : List Char × List Char :=
  match noun_endings.find? (fun e => e.isSuffixOf superlemma) with
  | some e => stripEnding (superlemma, lemma_) e
  | none => (superlemma, lemma_)

/-- Modelled from the claim's words (C2): replace only the first occurrence
of `old` in the text, leaving later occurrences unchanged.  Used solely to
contrast the claim with `pyReplace`. -/
def replaceFirstOnly (old new : List Char) : List Char → List Char
  | [] => []
  | c :: rest =>
    if old ≠ [] ∧ old.isPrefixOf (c :: rest) then new ++ (c :: rest).drop old.length
    else c :: replaceFirstOnly old new rest

/- ===== Claim theorems ===== -/

/-- C5: `replace_word_in_text` rewrites an occurrence of the original word
only under the three delimiter patterns space-space, newline-space and
space-newline; a text without any such delimited occurrence — in
particular one where every occurrence of the word sits strictly inside a
longer token — is returned byte-for-byte unchanged. -/
theorem replace_word_in_text_no_delimited_occurrence
    (original replacement text : List Char)
    (h1 : occursIn (' ' :: original ++ [' ']) text = false)
    (h2 : occursIn ('\n' :: original ++ [' ']) text = false)
    (h3 : occursIn (' ' :: original ++ ['\n']) text = false) :
    replace_word_in_text original replacement text = text := by
  show pyReplace (' ' :: original ++ ['\n']) (' ' :: replacement ++ ['\n'])
      (pyReplace ('\n' :: original ++ [' ']) ('\n' :: replacement ++ [' '])
        (pyReplace (' ' :: original ++ [' ']) (' ' :: replacement ++ [' ']) text)) = text
  rw [pyReplace_not_occurs _ _ _ h1, pyReplace_not_occurs _ _ _ h2,
      pyReplace_not_occurs _ _ _ h3]

theorem replace_word_in_text_no_delimited_occurrence_witness :
    (occursIn (' ' :: strL "a" ++ [' ']) (strL "cat") = false ∧
     occursIn ('\n' :: strL "a" ++ [' ']) (strL "cat") = false ∧
     occursIn (' ' :: strL "a" ++ ['\n']) (strL "cat") = false) ∧
    replace_word_in_text (strL "a") (strL "b") (strL "cat") = strL "cat" :=
  ⟨⟨by decide, by decide, by decide⟩,
   replace_word_in_text_no_delimited_occurrence (strL "a") (strL "b") (strL "cat")
     (by decide) (by decide) (by decide)⟩

/-- C10: an occurrence of the original word that is immediately preceded and
followed by a newline (the word standing alone on its own line) matches
none of the three delimiter patterns of `replace_word_in_text` — each
pattern contains a space — so the text consisting of exactly that
occurrence is left unchanged. -/
theorem replace_word_in_text_own_line_unchanged (original replacement : List Char)
    (h : ' ' ∉ original) :
    replace_word_in_text original replacement ('\n' :: original ++ ['\n']) =
      '\n' :: original ++ ['\n'] := by
  have htext : ' ' ∉ '\n' :: original ++ ['\n'] := by
    intro hm
    rcases List.mem_cons.mp hm with hh | ht
    · exact absurd hh.symm (by decide)
    · rcases List.mem_append.mp ht with hA | hB
      · exact h hA
      · rcases List.mem_singleton.mp hB with hh2
        exact absurd hh2.symm (by decide)
  show pyReplace (' ' :: original ++ ['\n']) (' ' :: replacement ++ ['\n'])
      (pyReplace ('\n' :: original ++ [' ']) ('\n' :: replacement ++ [' '])
        (pyReplace (' ' :: original ++ [' ']) (' ' :: replacement ++ [' '])
          ('\n' :: original ++ ['\n']))) = '\n' :: original ++ ['\n']
  have o1 : occursIn (' ' :: original ++ [' ']) ('\n' :: original ++ ['\n']) = false :=
    occursIn_false_of_mem _ _ ' ' (List.mem_cons_self _ _) htext
  have o2 : occursIn ('\n' :: original ++ [' ']) ('\n' :: original ++ ['\n']) = false :=
    occursIn_false_of_mem _ _ ' '
      (List.mem_cons_of_mem _ (List.mem_append_right _ (List.mem_singleton.mpr rfl)))
      htext
  have o3 : occursIn (' ' :: original ++ ['\n']) ('\n' :: original ++ ['\n']) = false :=
    occursIn_false_of_mem _ _ ' ' (List.mem_cons_self _ _) htext
  rw [pyReplace_not_occurs _ _ _ o1, pyReplace_not_occurs _ _ _ o2,
      pyReplace_not_occurs _ _ _ o3]

theorem replace_word_in_text_own_line_unchanged_witness :
    (' ' ∉ strL "a") ∧
    replace_word_in_text (strL "a") (strL "b") ('\n' :: strL "a" ++ ['\n']) =
      '\n' :: strL "a" ++ ['\n'] :=
  ⟨by decide,
   replace_word_in_text_own_line_unchanged (strL "a") (strL "b") (by decide)⟩

/-- C2 (counterexample): the surface substitution of line 364 is Python's
`str.replace`, which replaces every occurrence — on token `"amam"` with
stripped lemma `"am"` and stripped super-lemma root `"x"` it yields
`"xx"`, not the `"xam"` required by the claim's first-occurrence-only
semantics. -/
theorem normalise_surface_not_first_only :
    normalise_surface (strL "amam") (strL "am") (strL "x") = strL "xx" ∧
    replaceFirstOnly (strL "am") (strL "x") (strL "amam") = strL "xam" ∧
    normalise_surface (strL "amam") (strL "am") (strL "x") ≠
      replaceFirstOnly (strL "am") (strL "x") (strL "amam") := by
  refine ⟨by decide, by decide, by decide⟩

/-- C2 (amended): the surface substitution replaces EVERY (left-to-right,
non-overlapping) occurrence of the stripped lemma inside the token by the
stripped super-lemma root; in particular a token that is the lemma
repeated twice becomes the root repeated twice. -/
theorem normalise_surface_replaces_every_occurrence (l s : List Char) (h : l ≠ []) :
    normalise_surface (l ++ l) l s = s ++ s := by
  unfold normalise_surface
  rw [pyReplace_append_self l s l h, pyReplace_self l s h]

theorem normalise_surface_replaces_every_occurrence_witness :
    (strL "am" ≠ ([] : List Char)) ∧
    normalise_surface (strL "am" ++ strL "am") (strL "am") (strL "x") =
      strL "x" ++ strL "x" :=
  ⟨by decide,
   normalise_surface_replaces_every_occurrence (strL "am") (strL "x") (by decide)⟩

theorem main_expansion_fold_aux (pairs : List (List Char × List Char)) :
    ∀ (t : List Char) (e : List (List Char × List Char)),
      pairs.foldl
        (fun acc word =>
          let true_or_false := true
          if true_or_false then (replace_word_in_text word.1 word.2 acc.1, acc.2)
          else (replace_word_in_text word.1 word.2 acc.1, acc.2 ++ [word]))
        (t, e)
      = (pairs.foldl (fun t2 w => replace_word_in_text w.1 w.2 t2) t, e) := by
  induction pairs with
  | nil => intro t e; rfl
  | cons p ps ih =>
    intro t e
    rw [List.foldl_cons, List.foldl_cons]
    exact ih _ e

/-- C8: in the pipeline as wired in `main`, lexicon verification of
expansions is bypassed (`true_or_false = True`), so the
abbreviation-resolution error list stays empty for every input, and every
resolved pair is applied to the text in order. -/
theorem main_expansion_check_no_errors (text : List Char)
    (pairs : List (List Char × List Char)) :
    (main_expansion_check text pairs).2 = [] ∧
    (main_expansion_check text pairs).1 =
      pairs.foldl (fun t w => replace_word_in_text w.1 w.2 t) text := by
  unfold main_expansion_check
  rw [main_expansion_fold_aux pairs text []]
  exact ⟨rfl, rfl⟩

theorem clean_text_eq_filter :
    ∀ (cs t : List Char), clean_text cs t = t.filter (fun d => !(cs.contains d)) := by
  intro cs
  induction cs with
  | nil =>
    intro t
    show t = t.filter (fun d => !(([] : List Char).contains d))
    simp
  | cons c cs ih =>
    intro t
    show clean_text cs (pyReplace [c] [] t) = _
    rw [ih, pyReplace_delete_char, List.filter_filter]
    refine List.filter_congr (fun a _ => ?_)
    rw [Bool.eq_iff_iff]
    simp [List.contains_cons]
    tauto

/-- C9: `clean_text` deletes every occurrence of each listed character, so
it is idempotent, and permuting the deletion list does not change the
result. -/
theorem clean_text_idem_perm (cs cs2 t : List Char) (hperm : List.Perm cs cs2) :
    clean_text cs (clean_text cs t) = clean_text cs t ∧
    clean_text cs t = clean_text cs2 t := by
  constructor
  · rw [clean_text_eq_filter, clean_text_eq_filter, List.filter_filter]
    refine List.filter_congr (fun a _ => ?_)
    exact Bool.and_self _
  · rw [clean_text_eq_filter, clean_text_eq_filter]
    refine List.filter_congr (fun a _ => ?_)
    have hc1 : cs.contains a = decide (a ∈ cs) := by simp [List.contains]
    have hc2 : cs2.contains a = decide (a ∈ cs2) := by simp [List.contains]
    rw [hc1, hc2, decide_eq_decide.mpr hperm.mem_iff]

theorem clean_text_idem_perm_witness :
    (List.Perm ['a', 'b'] ['b', 'a']) ∧
    (clean_text ['a', 'b'] (clean_text ['a', 'b'] (strL "abcab")) =
        clean_text ['a', 'b'] (strL "abcab") ∧
     clean_text ['a', 'b'] (strL "abcab") = clean_text ['b', 'a'] (strL "abcab")) :=
  ⟨List.Perm.swap 'b' 'a' [],
   clean_text_idem_perm ['a', 'b'] ['b', 'a'] (strL "abcab") (List.Perm.swap 'b' 'a' [])⟩

/-- C7: `expand_abbreviation` appends an (original, expansion) pair exactly
when the word contains at least one configured marker character; a
dictionary hit is used verbatim, otherwise all substitution rules are
applied in order (`apply_rules`); the pair is appended unconditionally in
the marker case (even when the expansion equals the word), and the error
list is never touched. -/
theorem expand_abbreviation_spec (special_characters : List Char)
    (dict rules : List (List Char × List Char)) (st : ExpansionState)
    (word : List Char) :
    (¬ (∃ c ∈ word, c ∈ special_characters) →
      expand_abbreviation special_characters dict rules st word = st) ∧
    ((∃ c ∈ word, c ∈ special_characters) →
      (expand_abbreviation special_characters dict rules st word).expanded_words_errors
        = st.expanded_words_errors) ∧
    (∀ e, (∃ c ∈ word, c ∈ special_characters) → dictLookup dict word = some e →
      (expand_abbreviation special_characters dict rules st word).expanded_words
        = st.expanded_words ++ [(word, e)]) ∧
    ((∃ c ∈ word, c ∈ special_characters) → dictLookup dict word = none →
      (expand_abbreviation special_characters dict rules st word).expanded_words
        = st.expanded_words ++ [(word, apply_rules rules word)]) := by
  have hbridge : (word.any fun ch => special_characters.contains ch) = true ↔
      ∃ c ∈ word, c ∈ special_characters := by
    rw [List.any_eq_true]
    constructor
    · rintro ⟨x, hx, hcont⟩
      refine ⟨x, hx, ?_⟩
      have : special_characters.contains x = decide (x ∈ special_characters) := by
        simp [List.contains]
      rw [this] at hcont
      exact of_decide_eq_true hcont
    · rintro ⟨x, hx, hmem⟩
      refine ⟨x, hx, ?_⟩
      have : special_characters.contains x = decide (x ∈ special_characters) := by
        simp [List.contains]
      rw [this]
      exact decide_eq_true hmem
  refine ⟨?_, ?_, ?_, ?_⟩
  · intro hno
    unfold expand_abbreviation
    rw [if_neg]
    intro hc
    exact hno (hbridge.mp hc)
  · intro hyes
    unfold expand_abbreviation
    rw [if_pos (hbridge.mpr hyes)]
  · intro e hyes hdict
    unfold expand_abbreviation
    rw [if_pos (hbridge.mpr hyes)]
    simp only [hdict]
  · intro hyes hdict
    unfold expand_abbreviation
    rw [if_pos (hbridge.mpr hyes)]
    simp only [hdict]

theorem expand_abbreviation_spec_witness :
    (∃ c ∈ strL "q;", c ∈ [';']) ∧
    (expand_abbreviation [';'] [] [([';'], strL "us")] ⟨[], []⟩
        (strL "q;")).expanded_words = [(strL "q;", strL "qus")] ∧
    (expand_abbreviation [';'] [] [([';'], strL "us")] ⟨[], []⟩
        (strL "q;")).expanded_words_errors = [] := by
  refine ⟨by decide, ?_, ?_⟩
  · have h := (expand_abbreviation_spec [';'] [] [([';'], strL "us")] ⟨[], []⟩
      (strL "q;")).2.2.2 (by decide) (by decide)
    rw [h]
    decide
  · exact (expand_abbreviation_spec [';'] [] [([';'], strL "us")] ⟨[], []⟩
      (strL "q;")).2.1 (by decide)

theorem foldl_stripEnding_no_match :
    ∀ (es : List (List Char)) (p : List Char × List Char),
      (∀ e ∈ es, e.isSuffixOf p.1 = false) → es.foldl stripEnding p = p := by
  intro es
  induction es with
  | nil => intro p _; rfl
  | cons a es ih =>
    intro p h
    have ha := h a (List.mem_cons_self a es)
    have hstep : stripEnding p a = p := by
      unfold stripEnding
      rw [if_neg]
      intro hc
      rw [ha] at hc
      exact Bool.false_ne_true hc
    rw [List.foldl_cons, hstep]
    exact ih p (fun e he => h e (List.mem_cons_of_mem a he))

theorem foldl_stripEnding_first_match :
    ∀ (es : List (List Char)) (p : List Char × List Char) (e : List Char),
      es.find? (fun en => en.isSuffixOf p.1) = some e →
      (∀ e2 ∈ es, e2.isSuffixOf (stripEnding p e).1 = false) →
      es.foldl stripEnding p = stripEnding p e := by
  intro es
  induction es with
  | nil => intro p e h _; simp [List.find?] at h
  | cons a es ih =>
    intro p e hfind hafter
    by_cases ha : a.isSuffixOf p.1 = true
    · have hcons : List.find? (fun en => en.isSuffixOf p.1) (a :: es) = some a :=
        List.find?_cons_of_pos es ha
      rw [hcons] at hfind
      have hae : a = e := by injection hfind
      subst hae
      rw [List.foldl_cons]
      exact foldl_stripEnding_no_match es _
        (fun e2 he2 => hafter e2 (List.mem_cons_of_mem a he2))
    · have ha2 : ¬ (a.isSuffixOf p.1 : Prop) := ha
      have hcons : List.find? (fun en => en.isSuffixOf p.1) (a :: es)
          = List.find? (fun en => en.isSuffixOf p.1) es :=
        List.find?_cons_of_neg es ha2
      rw [hcons] at hfind
      rw [List.foldl_cons]
      have hstep : stripEnding p a = p := by
        unfold stripEnding
        rw [if_neg ha2]
      rw [hstep]
      exact ih p e hfind (fun e2 he2 => hafter e2 (List.mem_cons_of_mem a he2))

/-- C1 (counterexample): for a super-lemma base that still matches a later
ending after the first strip, the source's ending loop (no `break`,
lines 350-353) strips more than one ending: base `"laus"` (tagged `NN`,
neither `V`, `ADV` nor `PRO`) first loses `"us"` giving `"la"`, which then
loses `"a"`, yielding root `"l"` — not the single-strip result `"la"`
required by the claim. -/
theorem root_strip_default_strips_twice :
    root_strip (strL "NN") (strL "laus@NN") (strL "laus") = (strL "l", strL "l") ∧
    strip_first_ending_claim (strL "laus") (strL "laus") = (strL "la", strL "la") ∧
    root_strip (strL "NN") (strL "laus@NN") (strL "laus") ≠
      strip_first_ending_claim (strL "laus") (strL "laus") := by
  refine ⟨by decide, by decide, by decide⟩

/-- C1 (amended): the ending list is scanned in the given order and each
ending matching the CURRENT (possibly already-stripped) base is stripped
from both base and lemma, so several endings can be stripped; whenever no
ending at all matches the once-stripped base — as for `"dominus"`, whose
strip to `"domin"` matches nothing — exactly the first matching ending is
stripped, from both the super-lemma base and the lemma. -/
theorem root_strip_default_first_match (wordform superlemma lemma_ e : List Char)
    (hV : wordform ≠ strL "V") (hADV : wordform ≠ strL "ADV")
    (hPRO : wordform ≠ strL "PRO")
    (hfind : noun_endings.find?
        (fun en => en.isSuffixOf ((pySplit '@' superlemma).headD [])) = some e)
    (hafter : ∀ e2 ∈ noun_endings,
        e2.isSuffixOf ((stripEnding ((pySplit '@' superlemma).headD [], lemma_) e).1)
          = false) :
    root_strip wordform superlemma lemma_ =
      stripEnding ((pySplit '@' superlemma).headD [], lemma_) e := by
  unfold root_strip
  rw [if_neg hV, if_neg hADV, if_neg hPRO]
  exact foldl_stripEnding_first_match noun_endings _ e hfind hafter

theorem root_strip_default_first_match_witness :
    ((strL "NN" ≠ strL "V") ∧
     noun_endings.find?
        (fun en => en.isSuffixOf ((pySplit '@' (strL "dominus@NN")).headD []))
       = some (strL "us")) ∧
    root_strip (strL "NN") (strL "dominus@NN") (strL "dominus")
      = (strL "domin", strL "domin") := by
  refine ⟨⟨by decide, by decide⟩, ?_⟩
  have h := root_strip_default_first_match (strL "NN") (strL "dominus@NN")
    (strL "dominus") (strL "us") (by decide) (by decide) (by decide)
    (by decide) (by decide)
  rw [h]
  decide

/-- C6: verb root stripping — for a super-lemma `base@V`, strip 2 trailing
characters when the base ends in `"or"`, 3 when it ends in `"sco"`
(tested after `"or"`, matching the source's branch order), otherwise 1,
and remove the same count from the lemma; `"amor"` strips to `"am"`,
`"cresco"` to `"cre"` and `"amo"` to `"am"`. -/
theorem root_strip_verb (base lemma_ : List Char) (hat : '@' ∉ base) :
    root_strip (strL "V") (base ++ strL "@V") lemma_ =
      (if (strL "or").isSuffixOf base then
        (base.take (base.length - 2), lemma_.take (lemma_.length - 2))
      else if (strL "sco").isSuffixOf base then
        (base.take (base.length - 3), lemma_.take (lemma_.length - 3))
      else
        (base.take (base.length - 1), lemma_.take (lemma_.length - 1))) ∧
    root_strip (strL "V") (strL "amor@V") (strL "amor") = (strL "am", strL "am") ∧
    root_strip (strL "V") (strL "cresco@V") (strL "cresco") = (strL "cre", strL "cre") ∧
    root_strip (strL "V") (strL "amo@V") (strL "amo") = (strL "am", strL "am") := by
  refine ⟨?_, by decide, by decide, by decide⟩
  have hsplit : (pySplit '@' (base ++ strL "@V")).headD [] = base := by
    have he : base ++ strL "@V" = base ++ '@' :: strL "V" := rfl
    rw [he, pySplit_append '@' base (strL "V") hat]
    rfl
  unfold root_strip
  rw [if_pos rfl, hsplit]
  by_cases h1 : (strL "or").isSuffixOf base = true
  · simp [h1]
  · by_cases h2 : (strL "sco").isSuffixOf base = true
    · simp [h1, h2]
    · simp [h1, h2]

theorem root_strip_verb_witness :
    ('@' ∉ strL "amor") ∧
    root_strip (strL "V") (strL "amor@V") (strL "amor") = (strL "am", strL "am") :=
  ⟨by decide, (root_strip_verb (strL "amor") (strL "amor") (by decide)).2.1⟩

theorem isWordChar_ne_newline (c : Char) (h : isWordChar c = true) : c ≠ '\n' := by
  intro he
  subst he
  exact absurd h (by decide)

theorem findWNW_single_pair (w1 w2 : List Char) (h1 : w1 ≠ []) (h2 : w2 ≠ [])
    (hw1 : ∀ c ∈ w1, isWordChar c = true) (hw2 : ∀ c ∈ w2, isWordChar c = true) :
    findWNW (w1 ++ '\n' :: w2) = [w1 ++ '\n' :: w2] := by
  have hnl : isWordChar '\n' = false := by decide
  have htw : (w1 ++ '\n' :: w2).takeWhile isWordChar = w1 :=
    takeWhile_append_stop w1 '\n' w2 hw1 hnl
  have hdw : (w1 ++ '\n' :: w2).dropWhile isWordChar = '\n' :: w2 :=
    dropWhile_append_stop w1 '\n' w2 hw1 hnl
  have htw2 : w2.takeWhile isWordChar = w2 := takeWhile_all w2 hw2
  have hdw2 : w2.dropWhile isWordChar = [] := dropWhile_all w2 hw2
  obtain ⟨a, t1, ha1⟩ := List.exists_cons_of_ne_nil h1
  have ha : isWordChar a = true := hw1 a (ha1 ▸ List.mem_cons_self a t1)
  unfold findWNW
  rw [show w1 ++ '\n' :: w2 = a :: (t1 ++ '\n' :: w2) from by rw [ha1]; rfl]
  rw [show (a :: (t1 ++ '\n' :: w2)).length = (t1 ++ '\n' :: w2).length + 1 from rfl]
  rw [findWNWFuel]
  rw [ha, if_pos rfl]
  have hback : a :: (t1 ++ '\n' :: w2) = w1 ++ '\n' :: w2 := by rw [ha1]; rfl
  rw [hback, htw, hdw]
  simp only [List.headD_cons, List.tail_cons, if_pos rfl, htw2, if_neg h2, hdw2,
    findWNWFuel_nil, if_true]

/-- C4: segmentation repair on a word pair split by a single newline merges
the pair exactly when the newline-free concatenation, lowercased, is in
the lexicon; when attested the matched `word\nword` substring is replaced
(everywhere, via `text.replace`) by the merged form, otherwise the text is
returned with the line break unchanged. -/
theorem word_segmentation_single_pair (df : List LexRow) (w1 w2 : List Char)
    (h1 : w1 ≠ []) (h2 : w2 ≠ [])
    (hw1 : ∀ c ∈ w1, isWordChar c = true) (hw2 : ∀ c ∈ w2, isWordChar c = true) :
    word_segmentation df (w1 ++ '\n' :: w2) =
      if lexHas df (toLowerL (w1 ++ w2)) then w1 ++ w2 else w1 ++ '\n' :: w2 := by
  have hfind := findWNW_single_pair w1 w2 h1 h2 hw1 hw2
  unfold word_segmentation
  rw [hfind, List.foldl_cons, List.foldl_nil]
  have heval : pyReplace ['\n'] [] (w1 ++ '\n' :: w2) = w1 ++ w2 := by
    rw [pyReplace_delete_char]
    rw [List.filter_append]
    have hf1 : w1.filter (fun d => !(d == '\n')) = w1 :=
      List.filter_eq_self.mpr (fun a ha => by
        simp [isWordChar_ne_newline a (hw1 a ha)])
    have hf2 : ('\n' :: w2).filter (fun d => !(d == '\n')) = w2 := by
      rw [List.filter_cons_of_neg (by simp)]
      exact List.filter_eq_self.mpr (fun a ha => by
        simp [isWordChar_ne_newline a (hw2 a ha)])
    rw [hf1, hf2]
  show (if lexHas df (toLowerL (pyReplace ['\n'] [] (w1 ++ '\n' :: w2))) then
      pyReplace (w1 ++ '\n' :: w2) (pyReplace ['\n'] [] (w1 ++ '\n' :: w2))
        (w1 ++ '\n' :: w2)
    else w1 ++ '\n' :: w2) = _
  rw [heval]
  by_cases hl : lexHas df (toLowerL (w1 ++ w2)) = true
  · rw [if_pos hl, if_pos hl]
    apply pyReplace_self
    intro hnil
    obtain ⟨a, t1, ha1⟩ := List.exists_cons_of_ne_nil h1
    rw [ha1] at hnil
    exact List.cons_ne_nil a (t1 ++ '\n' :: w2) hnil
  · rw [if_neg hl, if_neg hl]

theorem word_segmentation_single_pair_witness :
    ((strL "reg" ≠ ([] : List Char)) ∧
     (∀ c ∈ strL "reg", isWordChar c = true) ∧
     lexHas [(strL "regnum", strL "regnum@NN", strL "regnum")]
       (toLowerL (strL "reg" ++ strL "num")) = true) ∧
    word_segmentation [(strL "regnum", strL "regnum@NN", strL "regnum")]
      (strL "reg\nnum") = strL "regnum" := by
  refine ⟨⟨by decide, by decide, by decide⟩, ?_⟩
  have h := word_segmentation_single_pair
    [(strL "regnum", strL "regnum@NN", strL "regnum")]
    (strL "reg") (strL "num") (by decide) (by decide) (by decide) (by decide)
  have he : strL "reg" ++ '\n' :: strL "num" = strL "reg\nnum" := by decide
  rw [he] at h
  rw [h]
  decide

/-- C3: a lookup miss is NOT always non-fatal.  When the very first unique
word processed is absent from the lexicon, the word is appended to the
error list, but the loop body then reaches
`self.write_to_csv(dict_normalization)` (line 390) with the local variable
`dict_normalization` never assigned (it is only assigned in the lookup-hit
branch, line 319), so Python raises `UnboundLocalError` and the run
aborts: here, text `"xyz"` with an empty lexicon and empty
canonicalisation tables. -/
theorem normalise_text_first_miss_raises :
    normalise_text [] ⟨[], []⟩ (strL "xyz") = Except.error PyErr.unboundLocal := rfl
